import Mathlib

/-
Verification of the core logic of the Explorer grid game (src/main.py):
breadth-first reachability, item/hazard placement, and the gameplay state
machine.  Python integers are modelled as ℤ (coordinates, timers) or ℕ
(counts), Python sets of cells as `Finset (ℤ × ℤ)`, Python lists as `List`.
The process-wide random shuffles are modelled by an explicit enumeration
function `shuffle : Finset Cell → List Cell`, constrained in theorems to
produce a duplicate-free enumeration of its argument, which is exactly the
guarantee `random.shuffle(list(s))` provides.
-/

namespace Explorer

abbrev Cell : Type := ℤ × ℤ

/-- Grid width, from `COLS = 15`. -/
def COLS : ℤ := 15

/-- Grid height, from `ROWS = 15`. -/
def ROWS : ℤ := 15

/-- Tile pixel size, from `TILE = 40`. -/
def TILE : ℤ := 40

/-- HUD height in pixels, from `HUD_H = 50`. -/
def HUD_H : ℤ := 50

/-- Number of nugget pieces, from `NUM_PIECES = 5`. -/
def NUM_PIECES : ℕ := 5

/-- Frames of the pitfall red flash, from `FLASH_DURATION = 75`. -/
def FLASH_DURATION : ℤ := 75

/-- Frames of the piece-found sequence, from `PIECE_DURATION = 120`. -/
def PIECE_DURATION : ℤ := 120

/-- Start cell, from `START_POS = (7, 7)`. -/
def START_POS : Cell := (7, 7)

/-- Membership test `0 <= nb[0] < COLS and 0 <= nb[1] < ROWS` used by the
BFS and by `handle_keydown`. -/
def inBounds (c : Cell) : Prop :=
  0 ≤ c.1 ∧ c.1 < COLS ∧ 0 ≤ c.2 ∧ c.2 < ROWS

instance : DecidablePred inBounds := fun c => by
  unfold inBounds; infer_instance

/-- The set `all_cells = {(c, r) for c in range(COLS) for r in range(ROWS)}`. -/
def gridFinset : Finset Cell :=
  Finset.Ico (0 : ℤ) COLS ×ˢ Finset.Ico (0 : ℤ) ROWS

/-- The four neighbor offsets `((1,0),(-1,0),(0,1),(0,-1))`, in source order. -/
def deltas : List (ℤ × ℤ) := [(1, 0), (-1, 0), (0, 1), (0, -1)]

/-- The four 4-connected neighbors `(cx+dx, cy+dy)` of a cell, in source order. -/
def nbrs (c : Cell) : List Cell :=
  deltas.map fun d => (c.1 + d.1, c.2 + d.2)

/-- One pass of the inner `for dx, dy in ...` loop of `_bfs_reachable`, for the
case where no neighbor equals the goal: each neighbor that is in bounds, not
blocked and not yet visited is added to `visited` and appended to the queue. -/
def expand (blocked : Finset Cell) :
    List Cell → Finset Cell → List Cell → Finset Cell × List Cell
  | [], visited, q => (visited, q)
  | nb :: rest, visited, q =>
    if inBounds nb ∧ nb ∉ blocked ∧ nb ∉ visited then
      expand blocked rest (insert nb visited) (q ++ [nb])
    else
      expand blocked rest visited q

/-- Core of `_bfs_reachable`: the `while q:` loop.  Popping a cell, the source
first tests each of its four candidate neighbors against the goal (returning `True`
immediately on a hit) and otherwise filters them into `visited` and the queue.
Because a goal hit returns regardless of any insertions already made in the
same pass, testing `goal ∈ nbrs c` up front is observationally identical. -/
def bfsAux (goal : Cell) (blocked : Finset Cell)
    (visited : Finset Cell) (q : List Cell) : Bool :=
  match q with
  | [] => false
  | c :: rest =>
    if goal ∈ nbrs c then true
    else
      bfsAux goal blocked (expand blocked (nbrs c) visited rest).1
        (expand blocked (nbrs c) visited rest).2
termination_by (gridFinset \ visited).card + q.length
decreasing_by
  have key : ∀ (l : List Cell) (v : Finset Cell) (qq : List Cell),
      (gridFinset \ (expand blocked l v qq).1).card + (expand blocked l v qq).2.length
        = (gridFinset \ v).card + qq.length := by
    intro l
    induction l with
    | nil => intro v qq; simp [expand]
    | cons nb rest2 ih =>
      intro v qq
      by_cases h : inBounds nb ∧ nb ∉ blocked ∧ nb ∉ v
      · simp only [expand, if_pos h]
        rw [ih]
        have hg : nb ∈ gridFinset :=
          Finset.mem_product.mpr
            ⟨Finset.mem_Ico.mpr ⟨h.1.1, h.1.2.1⟩, Finset.mem_Ico.mpr ⟨h.1.2.2.1, h.1.2.2.2⟩⟩
        have hmem : nb ∈ gridFinset \ v := Finset.mem_sdiff.mpr ⟨hg, h.2.2⟩
        have he : gridFinset \ insert nb v = (gridFinset \ v).erase nb := by
          ext x
          simp only [Finset.mem_sdiff, Finset.mem_insert, Finset.mem_erase]
          tauto
        have hpos : 0 < (gridFinset \ v).card := Finset.card_pos.mpr ⟨nb, hmem⟩
        rw [he, Finset.card_erase_of_mem hmem]
        simp only [List.length_append, List.length_singleton]
        omega
      · simp only [expand, if_neg h]
        exact ih _ _
  have := key (nbrs c) visited rest
  simp only [List.length_cons]
  omega

/-- Embedding of `_bfs_reachable(start, goal, blocked)`. -/
def _bfs_reachable (start goal : Cell) (blocked : Finset Cell) : Bool :=
  if start = goal then true
  else bfsAux goal blocked {start} [start]

/-- Reachability by 4-connected moves from `start`, where every cell after the
start must be in bounds and not blocked (the start itself is unconstrained,
matching the BFS, which never bounds-checks the start). -/
inductive Reaches (start : Cell) (blocked : Finset Cell) : Cell → Prop where
  | refl : Reaches start blocked start
  | step {c nb : Cell} : Reaches start blocked c → nb ∈ nbrs c →
      inBounds nb → nb ∉ blocked → Reaches start blocked nb

/-- The piece-placement loop of `place_items`: walk the shuffled pool,
stopping once `NUM_PIECES` pieces are accepted, and accepting a cell when it
is BFS-reachable from the start with an empty blocked set. -/
def placePiecesLoop : List Cell → List Cell → List Cell
  | [], pieces => pieces
  | cell :: pool, pieces =>
    if NUM_PIECES ≤ pieces.length then pieces
    else if _bfs_reachable START_POS cell ∅ then placePiecesLoop pool (pieces ++ [cell])
    else placePiecesLoop pool pieces

/-- The pitfall-placement loop of `place_items`: walk the shuffled candidate
list, stopping once `num_pitfalls` pitfalls are accepted, and accepting a cell
only when every piece stays BFS-reachable with the enlarged pitfall set as the
blocked set. -/
def placePitfallsLoop (pieces : List Cell) (num_pitfalls : ℕ) :
    List Cell → Finset Cell → Finset Cell
  | [], pitfalls => pitfalls
  | cell :: candidates, pitfalls =>
    if num_pitfalls ≤ pitfalls.card then pitfalls
    else if pieces.all fun p => _bfs_reachable START_POS p (insert cell pitfalls) then
      placePitfallsLoop pieces num_pitfalls candidates (insert cell pitfalls)
    else
      placePitfallsLoop pieces num_pitfalls candidates pitfalls

/-- Embedding of `place_items(num_pitfalls)`.  The two `random.shuffle` calls
on `list(all_cells - forbidden)` are modelled by the explicit enumeration
function `shuffle`. -/
def place_items (shuffle : Finset Cell → List Cell) (num_pitfalls : ℕ) :
    List Cell × Finset Cell :=
  (placePiecesLoop (shuffle (gridFinset \ {START_POS})) [],
   placePitfallsLoop (placePiecesLoop (shuffle (gridFinset \ {START_POS})) [])
     num_pitfalls
     (shuffle (gridFinset \
       insert START_POS (placePiecesLoop (shuffle (gridFinset \ {START_POS})) []).toFinset))
     ∅)

/-- Contract of `random.shuffle(list(s))`: the produced list enumerates
exactly the elements of `s`, without duplicates, in some order. -/
def ShuffleSpec (shuffle : Finset Cell → List Cell) : Prop :=
  ∀ s : Finset Cell, (shuffle s).Nodup ∧ ∀ c : Cell, c ∈ shuffle s ↔ c ∈ s

/-- SDL2 keycode for the return key, as `pygame.K_RETURN`. -/
def K_RETURN : ℕ := 13

/-- SDL2 keycode for the space key, as `pygame.K_SPACE`. -/
def K_SPACE : ℕ := 32

/-- SDL2 keycode for the right arrow, as `pygame.K_RIGHT`. -/
def K_RIGHT : ℕ := 1073741903

/-- SDL2 keycode for the left arrow, as `pygame.K_LEFT`. -/
def K_LEFT : ℕ := 1073741904

/-- SDL2 keycode for the down arrow, as `pygame.K_DOWN`. -/
def K_DOWN : ℕ := 1073741905

/-- SDL2 keycode for the up arrow, as `pygame.K_UP`. -/
def K_UP : ℕ := 1073741906

/-- Movement delta `(dx, dy)` assigned by the `elif` chain of
`handle_keydown`; `(0, 0)` for non-directional keys. -/
def keyDelta (key : ℕ) : ℤ × ℤ :=
  if key = K_UP then (0, -1)
  else if key = K_DOWN then (0, 1)
  else if key = K_LEFT then (-1, 0)
  else if key = K_RIGHT then (1, 0)
  else (0, 0)

/-- Facing direction assigned by the same `elif` chain (0 up, 1 down, 2 left,
3 right); non-directional keys leave the old facing. -/
def keyDir (key : ℕ) (old : ℕ) : ℕ :=
  if key = K_UP then 0
  else if key = K_DOWN then 1
  else if key = K_LEFT then 2
  else if key = K_RIGHT then 3
  else old

/-- Embedding of the `GameState` dataclass.  Star particles carry random
float fields that the core never reads back, so the particle type is left
abstract as `S`; `win_angle` (a Python float assigned only the constant 0.0
by the state machine) is modelled exactly as ℚ. -/
structure GameState (S : Type) where
  player_x : ℤ
  player_y : ℤ
  player_dir : ℕ
  visited : Finset Cell
  piece_positions : List Cell
  collected_pieces : Finset Cell
  pitfall_positions : Finset Cell
  revealed_pitfalls : Finset Cell
  death_count : ℕ
  num_pitfalls : ℕ
  screen_state : String
  flash_timer : ℤ
  piece_timer : ℤ
  piece_origin : Cell
  win_angle : ℚ
  win_stars : List S
  star_spawn_timer : ℤ

variable {S : Type}

/-- Embedding of `new_game(num_pitfalls)`. -/
def new_game (shuffle : Finset Cell → List Cell) (num_pitfalls : ℕ) :
    GameState S :=
  { player_x := START_POS.1
    player_y := START_POS.2
    player_dir := 1
    visited := {START_POS}
    piece_positions := (place_items shuffle num_pitfalls).1
    collected_pieces := ∅
    pitfall_positions := (place_items shuffle num_pitfalls).2
    revealed_pitfalls := ∅
    death_count := 0
    num_pitfalls := num_pitfalls
    screen_state := "playing"
    flash_timer := 0
    piece_timer := 0
    piece_origin := (0, 0)
    win_angle := 0
    win_stars := []
    star_spawn_timer := 0 }

/-- Embedding of `reset_game(state)`: fresh map at the state's stored
difficulty, every other field reinitialized. -/
def reset_game (shuffle : Finset Cell → List Cell) (s : GameState S) :
    GameState S :=
  { s with
    player_x := START_POS.1
    player_y := START_POS.2
    player_dir := 1
    visited := {START_POS}
    piece_positions := (place_items shuffle s.num_pitfalls).1
    collected_pieces := ∅
    pitfall_positions := (place_items shuffle s.num_pitfalls).2
    revealed_pitfalls := ∅
    death_count := 0
    screen_state := "playing"
    flash_timer := 0
    piece_timer := 0
    piece_origin := (0, 0)
    win_angle := 0
    win_stars := []
    star_spawn_timer := 0 }

/-- Embedding of `handle_pitfall(state)`: called with the player already on
the triggered cell, it counts the death, reveals that cell, sends the player
back to the start and enters the flash phase. -/
def handle_pitfall (s : GameState S) : GameState S :=
  { s with
    death_count := s.death_count + 1
    revealed_pitfalls := insert (s.player_x, s.player_y) s.revealed_pitfalls
    player_x := START_POS.1
    player_y := START_POS.2
    visited := insert START_POS s.visited
    screen_state := "flash"
    flash_timer := FLASH_DURATION }

/-- Embedding of `handle_keydown(key, state)`.  `make_stars` abstracts the
particle burst constructor `make_stars(cx, cy, count)` (whose output the
state machine stores but never inspects).  In the source the facing mutation
happens inside the `elif` chain before the early returns; since all four
directional keys produce a nonzero delta and other keys leave the facing
untouched, updating facing exactly on directional keys is equivalent. -/
def handle_keydown (shuffle : Finset Cell → List Cell)
    (make_stars : ℤ → ℤ → ℕ → List S) (key : ℕ) (s : GameState S) :
    GameState S :=
  if s.screen_state = "win" ∨ s.screen_state = "flash" ∨ s.screen_state = "piece" then
    if s.screen_state = "win" ∧ (key = K_RETURN ∨ key = K_SPACE) then
      reset_game shuffle s
    else s
  else if keyDelta key = (0, 0) then s
  else if ¬ (0 ≤ s.player_x + (keyDelta key).1 ∧ s.player_x + (keyDelta key).1 < COLS ∧
             0 ≤ s.player_y + (keyDelta key).2 ∧ s.player_y + (keyDelta key).2 < ROWS) then
    { s with player_dir := keyDir key s.player_dir }
  else if (s.player_x + (keyDelta key).1, s.player_y + (keyDelta key).2) ∈
      s.pitfall_positions then
    handle_pitfall
      { s with
        player_dir := keyDir key s.player_dir
        player_x := s.player_x + (keyDelta key).1
        player_y := s.player_y + (keyDelta key).2
        visited := insert (s.player_x + (keyDelta key).1, s.player_y + (keyDelta key).2)
          s.visited }
  else if (s.player_x + (keyDelta key).1, s.player_y + (keyDelta key).2) ∈
      s.piece_positions ∧
      (s.player_x + (keyDelta key).1, s.player_y + (keyDelta key).2) ∉
        s.collected_pieces then
    if (insert (s.player_x + (keyDelta key).1, s.player_y + (keyDelta key).2)
        s.collected_pieces).card = NUM_PIECES then
      { s with
        player_dir := keyDir key s.player_dir
        player_x := s.player_x + (keyDelta key).1
        player_y := s.player_y + (keyDelta key).2
        visited := insert (s.player_x + (keyDelta key).1, s.player_y + (keyDelta key).2)
          s.visited
        collected_pieces := insert (s.player_x + (keyDelta key).1,
          s.player_y + (keyDelta key).2) s.collected_pieces
        piece_origin := (s.player_x + (keyDelta key).1, s.player_y + (keyDelta key).2)
        piece_timer := PIECE_DURATION
        screen_state := "win"
        win_stars := make_stars ((s.player_x + (keyDelta key).1) * TILE + TILE / 2)
          (HUD_H + (s.player_y + (keyDelta key).2) * TILE + TILE / 2) 40
        win_angle := 0 }
    else
      { s with
        player_dir := keyDir key s.player_dir
        player_x := s.player_x + (keyDelta key).1
        player_y := s.player_y + (keyDelta key).2
        visited := insert (s.player_x + (keyDelta key).1, s.player_y + (keyDelta key).2)
          s.visited
        collected_pieces := insert (s.player_x + (keyDelta key).1,
          s.player_y + (keyDelta key).2) s.collected_pieces
        piece_origin := (s.player_x + (keyDelta key).1, s.player_y + (keyDelta key).2)
        piece_timer := PIECE_DURATION
        screen_state := "piece" }
  else
    { s with
      player_dir := keyDir key s.player_dir
      player_x := s.player_x + (keyDelta key).1
      player_y := s.player_y + (keyDelta key).2
      visited := insert (s.player_x + (keyDelta key).1, s.player_y + (keyDelta key).2)
        s.visited }

/-- Trivial enumeration, used only to instantiate concrete witness states. -/
def shuffle0 : Finset Cell → List Cell := fun _ => []

/-- Trivial particle constructor, used only for concrete witness states. -/
def stars0 : ℤ → ℤ → ℕ → List Unit := fun _ _ _ => []

/-- Concrete playing state with the player at the start cell, used to build
witness scenarios. -/
def baseState : GameState Unit :=
  { player_x := 7
    player_y := 7
    player_dir := 1
    visited := {START_POS}
    piece_positions := []
    collected_pieces := ∅
    pitfall_positions := ∅
    revealed_pitfalls := ∅
    death_count := 0
    num_pitfalls := 1
    screen_state := "playing"
    flash_timer := 0
    piece_timer := 0
    piece_origin := (0, 0)
    win_angle := 0
    win_stars := []
    star_spawn_timer := 0 }

/-- Witness state with an unrevealed pitfall directly above the player. -/
def pitState : GameState Unit :=
  { baseState with pitfall_positions := {((7 : ℤ), (6 : ℤ))} }

/-- Witness state with an already revealed pitfall directly above the player. -/
def revealedState : GameState Unit :=
  { baseState with
    pitfall_positions := {((7 : ℤ), (6 : ℤ))}
    revealed_pitfalls := {((7 : ℤ), (6 : ℤ))} }

/-- Witness state with four of five pieces collected and the fifth directly
above the player. -/
def pieceState : GameState Unit :=
  { baseState with
    piece_positions :=
      [((7 : ℤ), (6 : ℤ)), ((0 : ℤ), (0 : ℤ)), ((1 : ℤ), (1 : ℤ)),
       ((2 : ℤ), (2 : ℤ)), ((3 : ℤ), (3 : ℤ))]
    collected_pieces :=
      {((0 : ℤ), (0 : ℤ)), ((1 : ℤ), (1 : ℤ)), ((2 : ℤ), (2 : ℤ)),
       ((3 : ℤ), (3 : ℤ))} }

/-- Witness state with the player in the top-left corner of the grid. -/
def cornerState : GameState Unit :=
  { baseState with
    player_x := 0
    player_y := 0
    visited := {((0 : ℤ), (0 : ℤ))} }

lemma mem_gridFinset {c : Cell} : c ∈ gridFinset ↔ inBounds c := by
  cases c with
  | mk x y =>
    simp [gridFinset, Finset.mem_product, Finset.mem_Ico, inBounds]
    tauto

lemma expand_visited_mono (blocked : Finset Cell) :
    ∀ (l : List Cell) (v : Finset Cell) (q : List Cell),
      v ⊆ (expand blocked l v q).1 := by
  intro l
  induction l with
  | nil => intro v q; simp [expand]
  | cons nb rest ih =>
    intro v q
    by_cases h : inBounds nb ∧ nb ∉ blocked ∧ nb ∉ v
    · simp only [expand, if_pos h]
      exact (Finset.subset_insert nb v).trans (ih _ _)
    · simp only [expand, if_neg h]
      exact ih _ _

lemma expand_visited_src (blocked : Finset Cell) :
    ∀ (l : List Cell) (v : Finset Cell) (q : List Cell) (x : Cell),
      x ∈ (expand blocked l v q).1 →
      x ∈ v ∨ (x ∈ l ∧ inBounds x ∧ x ∉ blocked) := by
  intro l
  induction l with
  | nil => intro v q x hx; exact Or.inl (by simpa [expand] using hx)
  | cons nb rest ih =>
    intro v q x hx
    by_cases h : inBounds nb ∧ nb ∉ blocked ∧ nb ∉ v
    · simp only [expand, if_pos h] at hx
      rcases ih _ _ _ hx with hv | ⟨hl, hb, hnb⟩
      · rcases Finset.mem_insert.mp hv with rfl | hv
        · exact Or.inr ⟨List.mem_cons_self _ _, h.1, h.2.1⟩
        · exact Or.inl hv
      · exact Or.inr ⟨List.mem_cons_of_mem _ hl, hb, hnb⟩
    · simp only [expand, if_neg h] at hx
      rcases ih _ _ _ hx with hv | ⟨hl, hb, hnb⟩
      · exact Or.inl hv
      · exact Or.inr ⟨List.mem_cons_of_mem _ hl, hb, hnb⟩

lemma expand_queue_mono (blocked : Finset Cell) :
    ∀ (l : List Cell) (v : Finset Cell) (q : List Cell) (x : Cell),
      x ∈ q → x ∈ (expand blocked l v q).2 := by
  intro l
  induction l with
  | nil => intro v q x hx; simpa [expand] using hx
  | cons nb rest ih =>
    intro v q x hx
    by_cases h : inBounds nb ∧ nb ∉ blocked ∧ nb ∉ v
    · simp only [expand, if_pos h]
      exact ih _ _ _ (List.mem_append_left _ hx)
    · simp only [expand, if_neg h]
      exact ih _ _ _ hx

lemma expand_queue_src (blocked : Finset Cell) :
    ∀ (l : List Cell) (v : Finset Cell) (q : List Cell) (x : Cell),
      x ∈ (expand blocked l v q).2 → x ∈ q ∨ x ∈ (expand blocked l v q).1 := by
  intro l
  induction l with
  | nil => intro v q x hx; exact Or.inl (by simpa [expand] using hx)
  | cons nb rest ih =>
    intro v q x hx
    by_cases h : inBounds nb ∧ nb ∉ blocked ∧ nb ∉ v
    · simp only [expand, if_pos h] at hx ⊢
      rcases ih _ _ _ hx with hq | hv
      · rcases List.mem_append.mp hq with hq | hq
        · exact Or.inl hq
        · right
          have : x = nb := by simpa using hq
          subst this
          exact expand_visited_mono blocked rest _ _ (Finset.mem_insert_self x v)
      · exact Or.inr hv
    · simp only [expand, if_neg h] at hx ⊢
      exact ih _ _ _ hx

lemma expand_new_in_queue (blocked : Finset Cell) :
    ∀ (l : List Cell) (v : Finset Cell) (q : List Cell) (x : Cell),
      x ∈ (expand blocked l v q).1 → x ∈ v ∨ x ∈ (expand blocked l v q).2 := by
  intro l
  induction l with
  | nil => intro v q x hx; exact Or.inl (by simpa [expand] using hx)
  | cons nb rest ih =>
    intro v q x hx
    by_cases h : inBounds nb ∧ nb ∉ blocked ∧ nb ∉ v
    · simp only [expand, if_pos h] at hx ⊢
      rcases ih _ _ _ hx with hv | hq
      · rcases Finset.mem_insert.mp hv with rfl | hv
        · exact Or.inr (expand_queue_mono blocked rest _ _ _
            (List.mem_append_right _ (List.mem_singleton_self x)))
        · exact Or.inl hv
      · exact Or.inr hq
    · simp only [expand, if_neg h] at hx ⊢
      exact ih _ _ _ hx

lemma expand_valid_mem (blocked : Finset Cell) :
    ∀ (l : List Cell) (v : Finset Cell) (q : List Cell) (x : Cell),
      x ∈ l → inBounds x → x ∉ blocked → x ∈ (expand blocked l v q).1 := by
  intro l
  induction l with
  | nil => intro v q x hx; cases hx
  | cons nb rest ih =>
    intro v q x hx hbnd hbl
    rcases List.mem_cons.mp hx with rfl | hx
    · by_cases hv : x ∈ v
      · by_cases h : inBounds x ∧ x ∉ blocked ∧ x ∉ v
        · exact absurd hv h.2.2
        · simp only [expand, if_neg h]
          exact expand_visited_mono blocked rest _ _ hv
      · have h : inBounds x ∧ x ∉ blocked ∧ x ∉ v := ⟨hbnd, hbl, hv⟩
        simp only [expand, if_pos h]
        exact expand_visited_mono blocked rest _ _ (Finset.mem_insert_self x v)
    · by_cases h : inBounds nb ∧ nb ∉ blocked ∧ nb ∉ v
      · simp only [expand, if_pos h]
        exact ih _ _ _ hx hbnd hbl
      · simp only [expand, if_neg h]
        exact ih _ _ _ hx hbnd hbl

lemma bfsAux_sound (goal : Cell) (blocked : Finset Cell) (start : Cell) :
    ∀ (visited : Finset Cell) (q : List Cell),
      (∀ x ∈ q, x ∈ visited) →
      (∀ x ∈ visited, Reaches start blocked x) →
      bfsAux goal blocked visited q = true →
      ∃ c, Reaches start blocked c ∧ goal ∈ nbrs c := by
  intro visited q
  induction visited, q using bfsAux.induct goal blocked with
  | case1 visited =>
    intro _ _ ht
    simp [bfsAux] at ht
  | case2 visited c rest hgoal =>
    intro hq hv _
    exact ⟨c, hv c (hq c (List.mem_cons_self c rest)), hgoal⟩
  | case3 visited c rest hgoal ih =>
    intro hq hv ht
    rw [bfsAux, if_neg hgoal] at ht
    refine ih ?_ ?_ ht
    · intro x hx
      rcases expand_queue_src blocked (nbrs c) visited rest x hx with hq2 | hv2
      · exact expand_visited_mono blocked (nbrs c) visited rest
          (hq x (List.mem_cons_of_mem c hq2))
      · exact hv2
    · intro x hx
      rcases expand_visited_src blocked (nbrs c) visited rest x hx with hv2 | ⟨hl, hb, hbl⟩
      · exact hv x hv2
      · exact Reaches.step (hv c (hq c (List.mem_cons_self c rest))) hl hb hbl

lemma bfsAux_complete (goal : Cell) (blocked : Finset Cell) (start : Cell) :
    ∀ (visited : Finset Cell) (q : List Cell),
      (∀ x ∈ q, x ∈ visited) →
      start ∈ visited →
      (∀ x ∈ visited, x ∉ q →
        (∀ nb ∈ nbrs x, nb ≠ goal) ∧
        (∀ nb ∈ nbrs x, inBounds nb → nb ∉ blocked → nb ∈ visited)) →
      bfsAux goal blocked visited q = false →
      ∀ d, Reaches start blocked d → goal ∉ nbrs d := by
  intro visited q
  induction visited, q using bfsAux.induct goal blocked with
  | case1 visited =>
    intro _ hstart hexp _ d hd
    have hmem : ∀ e, Reaches start blocked e → e ∈ visited := by
      intro e he
      induction he with
      | refl => exact hstart
      | step hc hmemn hbnd hbl ih =>
        exact (hexp _ ih (List.not_mem_nil _)).2 _ hmemn hbnd hbl
    exact fun hgd => (hexp d (hmem d hd) (List.not_mem_nil _)).1 goal hgd rfl
  | case2 visited c rest hgoal =>
    intro _ _ _ hf
    rw [bfsAux, if_pos hgoal] at hf
    cases hf
  | case3 visited c rest hgoal ih =>
    intro hq hstart hexp hf
    rw [bfsAux, if_neg hgoal] at hf
    refine ih ?_ ?_ ?_ hf
    · intro x hx
      rcases expand_queue_src blocked (nbrs c) visited rest x hx with hq2 | hv2
      · exact expand_visited_mono blocked (nbrs c) visited rest
          (hq x (List.mem_cons_of_mem c hq2))
      · exact hv2
    · exact expand_visited_mono blocked (nbrs c) visited rest hstart
    · intro x hx hxq
      rcases expand_new_in_queue blocked (nbrs c) visited rest x hx with hv2 | hq2
      · by_cases hxc : x = c
        · subst hxc
          constructor
          · intro nb hnb heq
            subst heq
            exact hgoal hnb
          · intro nb hnb hbnd hbl
            exact expand_valid_mem blocked (nbrs x) visited rest nb hnb hbnd hbl
        · have hxrest : x ∉ rest := fun hr =>
            hxq (expand_queue_mono blocked (nbrs c) visited rest x hr)
          have hold := hexp x hv2 (by
            intro hmem
            rcases List.mem_cons.mp hmem with h1 | h1
            · exact hxc h1
            · exact hxrest h1)
          exact ⟨hold.1, fun nb hnb hbnd hbl =>
            expand_visited_mono blocked (nbrs c) visited rest (hold.2 nb hnb hbnd hbl)⟩
      · exact absurd hq2 hxq

/-- Characterization of `_bfs_reachable` for distinct endpoints: it returns
`True` exactly when the goal shows up as a candidate neighbor of some cell
reachable from the start avoiding blocked/out-of-bounds cells.  The goal cell
itself is not required to be in bounds or unblocked, because the source tests
`nb == goal` before filtering the neighbor. -/
lemma bfs_true_iff (start goal : Cell) (blocked : Finset Cell)
    (hne : start ≠ goal) :
    _bfs_reachable start goal blocked = true ↔
      ∃ c, Reaches start blocked c ∧ goal ∈ nbrs c := by
  rw [_bfs_reachable, if_neg hne]
  constructor
  · intro ht
    refine bfsAux_sound goal blocked start {start} [start] ?_ ?_ ht
    · intro x hx
      simpa using List.mem_singleton.mp hx
    · intro x hx
      have : x = start := by simpa using hx
      subst this
      exact Reaches.refl
  · intro ⟨c, hc, hgoal⟩
    by_contra hft
    have hf : bfsAux goal blocked {start} [start] = false :=
      Bool.not_eq_true _ ▸ (by simpa using hft)
    exact bfsAux_complete goal blocked start {start} [start]
      (fun x hx => by simpa using List.mem_singleton.mp hx)
      (Finset.mem_singleton_self start)
      (fun x hx hxq => absurd (by simpa using hx : x = start)
        (fun h => hxq (h ▸ List.mem_singleton_self start)))
      hf c hc hgoal

lemma reaches_pred {start : Cell} {blocked : Finset Cell} {d : Cell}
    (h : Reaches start blocked d) (hne : d ≠ start) :
    ∃ c, Reaches start blocked c ∧ d ∈ nbrs c := by
  cases h with
  | refl => exact absurd rfl hne
  | step hc hmem _ _ => exact ⟨_, hc, hmem⟩

lemma reaches_step_free {start c d : Cell}
    (hc : Reaches start ∅ c) (hd : d ∈ nbrs c) (hb : inBounds d) :
    Reaches start ∅ d :=
  Reaches.step hc hd hb (Finset.not_mem_empty d)

lemma reaches_row_right : ∀ x : ℤ, 7 ≤ x → x < 15 → Reaches START_POS ∅ (x, 7) := by
  refine Int.le_induction (P := fun x => x < 15 → Reaches START_POS ∅ (x, 7)) ?_ ?_
  · intro _; exact Reaches.refl
  · intro n hn ih h15
    refine reaches_step_free (ih (by omega)) ?_ ?_
    · simp [nbrs, deltas]
    · exact ⟨by omega, by simp only [COLS]; omega, by omega, by simp only [ROWS]; omega⟩

lemma reaches_row_left : ∀ x : ℤ, x ≤ 7 → 0 ≤ x → Reaches START_POS ∅ (x, 7) := by
  refine Int.le_induction_down (P := fun x => 0 ≤ x → Reaches START_POS ∅ (x, 7)) ?_ ?_
  · intro _; exact Reaches.refl
  · intro n hn ih h0
    refine reaches_step_free (ih (by omega)) ?_ ?_
    · simp only [nbrs, deltas, List.map_cons, List.map_nil, List.mem_cons]
      right; left
      simp only [Prod.mk.injEq]
      exact ⟨by omega, rfl⟩
    · exact ⟨by omega, by simp only [COLS]; omega, by omega, by simp only [ROWS]; omega⟩

lemma reaches_row (x : ℤ) (hx0 : 0 ≤ x) (hx : x < 15) :
    Reaches START_POS ∅ (x, 7) := by
  rcases le_or_lt 7 x with h | h
  · exact reaches_row_right x h hx
  · exact reaches_row_left x (by omega) hx0

lemma reaches_col_up (x : ℤ) (hx0 : 0 ≤ x) (hx : x < 15) :
    ∀ y : ℤ, 7 ≤ y → y < 15 → Reaches START_POS ∅ (x, y) := by
  refine Int.le_induction (P := fun y => y < 15 → Reaches START_POS ∅ (x, y)) ?_ ?_
  · intro _; exact reaches_row x hx0 hx
  · intro n hn ih h15
    refine reaches_step_free (ih (by omega)) ?_ ?_
    · simp [nbrs, deltas]
    · exact ⟨hx0, by simp only [COLS]; omega, by omega, by simp only [ROWS]; omega⟩

lemma reaches_col_down (x : ℤ) (hx0 : 0 ≤ x) (hx : x < 15) :
    ∀ y : ℤ, y ≤ 7 → 0 ≤ y → Reaches START_POS ∅ (x, y) := by
  refine Int.le_induction_down (P := fun y => 0 ≤ y → Reaches START_POS ∅ (x, y)) ?_ ?_
  · intro _; exact reaches_row x hx0 hx
  · intro n hn ih h0
    refine reaches_step_free (ih (by omega)) ?_ ?_
    · simp only [nbrs, deltas, List.map_cons, List.map_nil, List.mem_cons]
      right; right; right; left
      simp only [Prod.mk.injEq]
      exact ⟨by omega, by omega⟩
    · exact ⟨hx0, by simp only [COLS]; omega, by omega, by simp only [ROWS]; omega⟩

/-- Every in-bounds cell is reachable from the start with no blocked cells:
the 15x15 grid is connected. -/
lemma reaches_all (c : Cell) (h : inBounds c) : Reaches START_POS ∅ c := by
  obtain ⟨hx0, hx, hy0, hy⟩ := h
  have hx15 : c.1 < 15 := by simpa [COLS] using hx
  have hy15 : c.2 < 15 := by simpa [ROWS] using hy
  rcases le_or_lt 7 c.2 with hc | hc
  · have := reaches_col_up c.1 hx0 hx15 c.2 hc hy15
    simpa using this
  · have := reaches_col_down c.1 hx0 hx15 c.2 (by omega) hy0
    simpa using this

/-- With an empty blocked set, the BFS answers `True` for every non-start grid
cell. -/
lemma bfs_true_of_grid (c : Cell) (h : inBounds c) (hne : c ≠ START_POS) :
    _bfs_reachable START_POS c ∅ = true := by
  rw [bfs_true_iff START_POS c ∅ (fun he => hne he.symm)]
  exact reaches_pred (reaches_all c h) hne

lemma placePiecesLoop_mem :
    ∀ (pool acc : List Cell) (p : Cell),
      p ∈ placePiecesLoop pool acc → p ∈ acc ∨ p ∈ pool := by
  intro pool
  induction pool with
  | nil => intro acc p hp; exact Or.inl (by simpa [placePiecesLoop] using hp)
  | cons cell pool ih =>
    intro acc p hp
    by_cases h5 : NUM_PIECES ≤ acc.length
    · simp only [placePiecesLoop, if_pos h5] at hp
      exact Or.inl hp
    · by_cases hr : _bfs_reachable START_POS cell ∅
      · simp only [placePiecesLoop, if_neg h5, if_pos hr] at hp
        rcases ih _ _ hp with hacc | hpool
        · rcases List.mem_append.mp hacc with h | h
          · exact Or.inl h
          · exact Or.inr (List.mem_cons.mpr (Or.inl (by simpa using h)))
        · exact Or.inr (List.mem_cons_of_mem _ hpool)
      · simp only [placePiecesLoop, if_neg h5, if_neg hr] at hp
        rcases ih _ _ hp with hacc | hpool
        · exact Or.inl hacc
        · exact Or.inr (List.mem_cons_of_mem _ hpool)

lemma placePiecesLoop_reachable :
    ∀ (pool acc : List Cell) (p : Cell),
      p ∈ placePiecesLoop pool acc →
      p ∈ acc ∨ _bfs_reachable START_POS p ∅ = true := by
  intro pool
  induction pool with
  | nil => intro acc p hp; exact Or.inl (by simpa [placePiecesLoop] using hp)
  | cons cell pool ih =>
    intro acc p hp
    by_cases h5 : NUM_PIECES ≤ acc.length
    · simp only [placePiecesLoop, if_pos h5] at hp
      exact Or.inl hp
    · by_cases hr : _bfs_reachable START_POS cell ∅
      · simp only [placePiecesLoop, if_neg h5, if_pos hr] at hp
        rcases ih _ _ hp with hacc | hre
        · rcases List.mem_append.mp hacc with h | h
          · exact Or.inl h
          · have : p = cell := by simpa using h
            subst this
            exact Or.inr hr
        · exact Or.inr hre
      · simp only [placePiecesLoop, if_neg h5, if_neg hr] at hp
        rcases ih _ _ hp with hacc | hre
        · exact Or.inl hacc
        · exact Or.inr hre

lemma placePiecesLoop_length :
    ∀ (pool acc : List Cell),
      (∀ c ∈ pool, _bfs_reachable START_POS c ∅ = true) →
      acc.length ≤ NUM_PIECES →
      (placePiecesLoop pool acc).length = min (acc.length + pool.length) NUM_PIECES := by
  intro pool
  induction pool with
  | nil =>
    intro acc _ hle
    simp only [placePiecesLoop, List.length_nil, Nat.add_zero]
    omega
  | cons cell pool ih =>
    intro acc hall hle
    by_cases h5 : NUM_PIECES ≤ acc.length
    · simp only [placePiecesLoop, if_pos h5, List.length_cons]
      omega
    · have hr : _bfs_reachable START_POS cell ∅ = true :=
        hall cell (List.mem_cons_self _ _)
      simp only [placePiecesLoop, if_neg h5, if_pos hr, List.length_cons]
      rw [ih (acc ++ [cell]) (fun c hc => hall c (List.mem_cons_of_mem _ hc))
        (by simp only [List.length_append, List.length_singleton]; omega)]
      simp only [List.length_append, List.length_singleton]
      omega

lemma placePitfallsLoop_subset (pieces : List Cell) (num_pitfalls : ℕ) :
    ∀ (candidates : List Cell) (pits : Finset Cell) (x : Cell),
      x ∈ placePitfallsLoop pieces num_pitfalls candidates pits →
      x ∈ pits ∨ x ∈ candidates := by
  intro candidates
  induction candidates with
  | nil => intro pits x hx; exact Or.inl (by simpa [placePitfallsLoop] using hx)
  | cons cell candidates ih =>
    intro pits x hx
    by_cases hn : num_pitfalls ≤ pits.card
    · simp only [placePitfallsLoop, if_pos hn] at hx
      exact Or.inl hx
    · by_cases hall : pieces.all fun p => _bfs_reachable START_POS p (insert cell pits)
      · simp only [placePitfallsLoop, if_neg hn, if_pos hall] at hx
        rcases ih _ _ hx with hp | hc
        · rcases Finset.mem_insert.mp hp with rfl | hp
          · exact Or.inr (List.mem_cons_self _ _)
          · exact Or.inl hp
        · exact Or.inr (List.mem_cons_of_mem _ hc)
      · simp only [placePitfallsLoop, if_neg hn, if_neg hall] at hx
        rcases ih _ _ hx with hp | hc
        · exact Or.inl hp
        · exact Or.inr (List.mem_cons_of_mem _ hc)

lemma placePitfallsLoop_reachable (pieces : List Cell) (num_pitfalls : ℕ) :
    ∀ (candidates : List Cell) (pits : Finset Cell),
      (∀ p ∈ pieces, _bfs_reachable START_POS p pits = true) →
      ∀ p ∈ pieces,
        _bfs_reachable START_POS p
          (placePitfallsLoop pieces num_pitfalls candidates pits) = true := by
  intro candidates
  induction candidates with
  | nil => intro pits hinv p hp; simpa [placePitfallsLoop] using hinv p hp
  | cons cell candidates ih =>
    intro pits hinv p hp
    by_cases hn : num_pitfalls ≤ pits.card
    · simp only [placePitfallsLoop, if_pos hn]
      exact hinv p hp
    · by_cases hall : pieces.all fun q => _bfs_reachable START_POS q (insert cell pits)
      · simp only [placePitfallsLoop, if_neg hn, if_pos hall]
        exact ih _ (fun q hq => List.all_eq_true.mp hall q hq) p hp
      · simp only [placePitfallsLoop, if_neg hn, if_neg hall]
        exact ih _ hinv p hp

lemma placePitfallsLoop_card (pieces : List Cell) (num_pitfalls : ℕ) :
    ∀ (candidates : List Cell) (pits : Finset Cell),
      pits.card ≤ num_pitfalls →
      (placePitfallsLoop pieces num_pitfalls candidates pits).card ≤ num_pitfalls := by
  intro candidates
  induction candidates with
  | nil => intro pits h; simpa [placePitfallsLoop] using h
  | cons cell candidates ih =>
    intro pits h
    by_cases hn : num_pitfalls ≤ pits.card
    · simp only [placePitfallsLoop, if_pos hn]
      exact h
    · by_cases hall : pieces.all fun q => _bfs_reachable START_POS q (insert cell pits)
      · simp only [placePitfallsLoop, if_neg hn, if_pos hall]
        exact ih _ (by
          have := Finset.card_insert_le cell pits
          omega)
      · simp only [placePitfallsLoop, if_neg hn, if_neg hall]
        exact ih _ h

lemma gridFinset_card : gridFinset.card = 225 := by
  rw [gridFinset, Finset.card_product, Int.card_Ico, Int.card_Ico]
  simp only [COLS, ROWS]
  decide

lemma start_mem_grid : START_POS ∈ gridFinset := by
  rw [mem_gridFinset]
  refine ⟨?_, ?_, ?_, ?_⟩ <;> norm_num [START_POS, COLS, ROWS]

lemma pool_length (shuffle : Finset Cell → List Cell) (hsh : ShuffleSpec shuffle) :
    (shuffle (gridFinset \ {START_POS})).length = 224 := by
  have hnd := (hsh (gridFinset \ {START_POS})).1
  have hfs : (shuffle (gridFinset \ {START_POS})).toFinset = gridFinset \ {START_POS} := by
    ext c
    rw [List.mem_toFinset]
    exact (hsh (gridFinset \ {START_POS})).2 c
  have := List.toFinset_card_of_nodup hnd
  rw [hfs] at this
  rw [← this, Finset.card_sdiff (Finset.singleton_subset_iff.mpr start_mem_grid),
    gridFinset_card, Finset.card_singleton]

lemma pieces_props (shuffle : Finset Cell → List Cell) (hsh : ShuffleSpec shuffle) :
    ∀ p ∈ placePiecesLoop (shuffle (gridFinset \ {START_POS})) [],
      inBounds p ∧ p ≠ START_POS ∧ _bfs_reachable START_POS p ∅ = true := by
  intro p hp
  have hpool : p ∈ shuffle (gridFinset \ {START_POS}) := by
    rcases placePiecesLoop_mem _ _ _ hp with h | h
    · cases h
    · exact h
  have hmem := (hsh (gridFinset \ {START_POS})).2 p |>.mp hpool
  rw [Finset.mem_sdiff, Finset.mem_singleton] at hmem
  refine ⟨mem_gridFinset.mp hmem.1, hmem.2, ?_⟩
  rcases placePiecesLoop_reachable _ _ _ hp with h | h
  · cases h
  · exact h

lemma pitfalls_props (shuffle : Finset Cell → List Cell) (hsh : ShuffleSpec shuffle)
    (n : ℕ) :
    ∀ x ∈ (place_items shuffle n).2,
      x ∉ insert START_POS (place_items shuffle n).1.toFinset := by
  intro x hx
  rcases placePitfallsLoop_subset _ _ _ _ _ hx with h | h
  · cases h
  · have := ((hsh _).2 x).mp h
    exact (Finset.mem_sdiff.mp this).2

/-- C1: outputs of `place_items` satisfy the data-model invariants: every
piece is reachable from the start cell (7,7) by 4-connected in-bounds moves
with the final pitfall set blocked, pitfalls are disjoint from pieces, and
the start cell is in neither set. -/
theorem place_items_invariants (shuffle : Finset Cell → List Cell) (n : ℕ)
    (hsh : ShuffleSpec shuffle) :
    (∀ p ∈ (place_items shuffle n).1,
      Reaches ((7 : ℤ), (7 : ℤ)) (place_items shuffle n).2 p) ∧
    (∀ p ∈ (place_items shuffle n).1, p ∉ (place_items shuffle n).2) ∧
    ((7 : ℤ), (7 : ℤ)) ∉ (place_items shuffle n).1 ∧
    ((7 : ℤ), (7 : ℤ)) ∉ (place_items shuffle n).2 := by
  have hdisj : ∀ p ∈ (place_items shuffle n).1, p ∉ (place_items shuffle n).2 := by
    intro p hp hmem
    exact pitfalls_props shuffle hsh n p hmem
      (Finset.mem_insert_of_mem (List.mem_toFinset.mpr hp))
  refine ⟨?_, hdisj, ?_, ?_⟩
  · intro p hp
    obtain ⟨hbnd, hne, hreach0⟩ := pieces_props shuffle hsh p hp
    have hfinal : _bfs_reachable START_POS p (place_items shuffle n).2 = true := by
      refine placePitfallsLoop_reachable _ n _ ∅ ?_ p hp
      intro q hq
      exact (pieces_props shuffle hsh q hq).2.2
    have hiff := (bfs_true_iff START_POS p (place_items shuffle n).2
      (fun h => hne h.symm)).mp hfinal
    obtain ⟨c, hc, hnb⟩ := hiff
    exact Reaches.step hc hnb hbnd (hdisj p hp)
  · intro h
    exact (pieces_props shuffle hsh _ h).2.1 rfl
  · intro h
    exact pitfalls_props shuffle hsh n _ h (Finset.mem_insert_self _ _)

/-- C1 witness at the concrete enumeration `Finset.toList` and hazard
count 20. -/
theorem place_items_invariants_witness :
    ((7 : ℤ), (7 : ℤ)) ∉ (place_items (fun s => s.toList) 20).1 ∧
    ((7 : ℤ), (7 : ℤ)) ∉ (place_items (fun s => s.toList) 20).2 :=
  ⟨(place_items_invariants (fun s => s.toList) 20
      (fun s => ⟨Finset.nodup_toList s, fun c => Finset.mem_toList⟩)).2.2.1,
   (place_items_invariants (fun s => s.toList) 20
      (fun s => ⟨Finset.nodup_toList s, fun c => Finset.mem_toList⟩)).2.2.2⟩

/-- C6: `place_items` always returns exactly 5 pieces, and at most the
requested number of pitfalls. -/
theorem place_items_counts (shuffle : Finset Cell → List Cell) (n : ℕ)
    (hsh : ShuffleSpec shuffle) :
    (place_items shuffle n).1.length = NUM_PIECES ∧
    (place_items shuffle n).2.card ≤ n := by
  constructor
  · have hall : ∀ c ∈ shuffle (gridFinset \ {START_POS}),
        _bfs_reachable START_POS c ∅ = true := by
      intro c hc
      have hmem := ((hsh (gridFinset \ {START_POS})).2 c).mp hc
      rw [Finset.mem_sdiff, Finset.mem_singleton] at hmem
      exact bfs_true_of_grid c (mem_gridFinset.mp hmem.1) hmem.2
    have := placePiecesLoop_length (shuffle (gridFinset \ {START_POS})) [] hall
      (by simp [NUM_PIECES])
    rw [pool_length shuffle hsh] at this
    simpa [NUM_PIECES] using this
  · exact placePitfallsLoop_card _ n _ ∅ (by simp)

/-- C6 witness at the concrete enumeration `Finset.toList` and hazard
count 20. -/
theorem place_items_counts_witness :
    (place_items (fun s => s.toList) 20).1.length = NUM_PIECES ∧
    (place_items (fun s => s.toList) 20).2.card ≤ 20 :=
  place_items_counts (fun s => s.toList) 20
    (fun s => ⟨Finset.nodup_toList s, fun c => Finset.mem_toList⟩)

/-- C2: `_bfs_reachable` returns `True` immediately when the endpoints
coincide, regardless of the blocked set; for distinct endpoints it returns
`True` exactly when the goal is discovered as a candidate neighbor during a
breadth-first search over 4-connected neighbors that filters out-of-bounds
and blocked cells, and `False` when that search exhausts. -/
theorem bfs_reachable_spec (start goal : Cell) (blocked : Finset Cell) :
    (start = goal → _bfs_reachable start goal blocked = true) ∧
    (start ≠ goal → (_bfs_reachable start goal blocked = true ↔
      ∃ c, Reaches start blocked c ∧ goal ∈ nbrs c)) := by
  constructor
  · intro h
    rw [_bfs_reachable, if_pos h]
  · intro h
    exact bfs_true_iff start goal blocked h

/-- C2 witness: the start-equals-goal case at a concrete blocked state. -/
theorem bfs_reachable_spec_witness :
    _bfs_reachable (3, 3) (3, 3) {((1 : ℤ), (1 : ℤ))} = true :=
  (bfs_reachable_spec (3, 3) (3, 3) {((1 : ℤ), (1 : ℤ))}).1 rfl

/-- C10: for distinct endpoints, whenever the goal is a 4-connected neighbor
of some cell reachable from the start avoiding the blocked set, the BFS
returns `True` — with no requirement that the goal itself be in bounds or
unblocked, since the goal test precedes the neighbor filtering. -/
theorem bfs_goal_neighbor_true (start goal : Cell) (blocked : Finset Cell)
    (hne : start ≠ goal)
    (h : ∃ c, Reaches start blocked c ∧ goal ∈ nbrs c) :
    _bfs_reachable start goal blocked = true :=
  (bfs_true_iff start goal blocked hne).mpr h

/-- C10 witness: the goal `(1, 0)` is itself in the blocked set, yet the BFS
from `(0, 0)` answers `True` because the goal neighbors the start. -/
theorem bfs_goal_neighbor_true_witness :
    (((1 : ℤ), (0 : ℤ)) : Cell) ∈ ({((1 : ℤ), (0 : ℤ))} : Finset Cell) ∧
    _bfs_reachable (0, 0) (1, 0) {((1 : ℤ), (0 : ℤ))} = true :=
  ⟨by decide,
    bfs_goal_neighbor_true (0, 0) (1, 0) {((1 : ℤ), (0 : ℤ))} (by decide)
      ⟨(0, 0), Reaches.refl, by decide⟩⟩

/-- C3: in the playing phase, a directional move onto a pitfall cell, in the
same tick, increments the death count by exactly 1, adds the cell to the
revealed set, returns the player to the start cell, enters the flash
(hazard-recovery) phase and sets its countdown to 75 frames — for every
player position. -/
theorem hazard_step_spec (shuffle : Finset Cell → List Cell)
    (make_stars : ℤ → ℤ → ℕ → List S) (key : ℕ) (s : GameState S)
    (hphase : s.screen_state = "playing")
    (hdelta : keyDelta key ≠ (0, 0))
    (hin : 0 ≤ s.player_x + (keyDelta key).1 ∧ s.player_x + (keyDelta key).1 < COLS ∧
           0 ≤ s.player_y + (keyDelta key).2 ∧ s.player_y + (keyDelta key).2 < ROWS)
    (hpit : (s.player_x + (keyDelta key).1, s.player_y + (keyDelta key).2) ∈
      s.pitfall_positions) :
    (handle_keydown shuffle make_stars key s).death_count = s.death_count + 1 ∧
    (handle_keydown shuffle make_stars key s).revealed_pitfalls =
      insert (s.player_x + (keyDelta key).1, s.player_y + (keyDelta key).2)
        s.revealed_pitfalls ∧
    (handle_keydown shuffle make_stars key s).player_x = START_POS.1 ∧
    (handle_keydown shuffle make_stars key s).player_y = START_POS.2 ∧
    (handle_keydown shuffle make_stars key s).screen_state = "flash" ∧
    (handle_keydown shuffle make_stars key s).flash_timer = 75 := by
  have hnw : ¬ (s.screen_state = "win" ∨ s.screen_state = "flash" ∨
      s.screen_state = "piece") := by
    rw [hphase]; decide
  have hres : handle_keydown shuffle make_stars key s =
      handle_pitfall
        { s with
          player_dir := keyDir key s.player_dir
          player_x := s.player_x + (keyDelta key).1
          player_y := s.player_y + (keyDelta key).2
          visited := insert (s.player_x + (keyDelta key).1,
            s.player_y + (keyDelta key).2) s.visited } := by
    unfold handle_keydown
    rw [if_neg hnw, if_neg hdelta, if_neg (not_not_intro hin), if_pos hpit]
  rw [hres]
  simp [handle_pitfall, FLASH_DURATION]

/-- C3 witness: stepping up onto the pitfall at (7,6). -/
theorem hazard_step_spec_witness :
    (handle_keydown shuffle0 stars0 K_UP pitState).death_count =
      pitState.death_count + 1 ∧
    (handle_keydown shuffle0 stars0 K_UP pitState).screen_state = "flash" :=
  ⟨(hazard_step_spec shuffle0 stars0 K_UP pitState rfl (by decide) (by decide)
      (by decide)).1,
   (hazard_step_spec shuffle0 stars0 K_UP pitState rfl (by decide) (by decide)
      (by decide)).2.2.2.2.1⟩

/-- C4 counterexample: from a playing state whose pitfall at (7,6) is already
revealed, moving up is not a no-op — the phase leaves `playing`, the death
count increments and the player is sent back to the start. -/
theorem revealed_hazard_not_noop :
    (handle_keydown shuffle0 stars0 K_UP revealedState).screen_state = "flash" ∧
    (handle_keydown shuffle0 stars0 K_UP revealedState).death_count =
      revealedState.death_count + 1 ∧
    (handle_keydown shuffle0 stars0 K_UP revealedState).player_x = 7 ∧
    (handle_keydown shuffle0 stars0 K_UP revealedState).player_y = 7 := by
  decide

/-- C4 amended: in the playing phase, a directional move onto a pitfall cell
already in the revealed set triggers the full hazard response again — the
phase becomes flash, the death count increments and the player returns to the
start — with the revealed set unchanged (the cell is already a member). -/
theorem revealed_hazard_triggers_again (shuffle : Finset Cell → List Cell)
    (make_stars : ℤ → ℤ → ℕ → List S) (key : ℕ) (s : GameState S)
    (hphase : s.screen_state = "playing")
    (hdelta : keyDelta key ≠ (0, 0))
    (hin : 0 ≤ s.player_x + (keyDelta key).1 ∧ s.player_x + (keyDelta key).1 < COLS ∧
           0 ≤ s.player_y + (keyDelta key).2 ∧ s.player_y + (keyDelta key).2 < ROWS)
    (hpit : (s.player_x + (keyDelta key).1, s.player_y + (keyDelta key).2) ∈
      s.pitfall_positions)
    (hrev : (s.player_x + (keyDelta key).1, s.player_y + (keyDelta key).2) ∈
      s.revealed_pitfalls) :
    (handle_keydown shuffle make_stars key s).screen_state = "flash" ∧
    (handle_keydown shuffle make_stars key s).death_count = s.death_count + 1 ∧
    (handle_keydown shuffle make_stars key s).player_x = START_POS.1 ∧
    (handle_keydown shuffle make_stars key s).player_y = START_POS.2 ∧
    (handle_keydown shuffle make_stars key s).revealed_pitfalls =
      s.revealed_pitfalls := by
  have hnw : ¬ (s.screen_state = "win" ∨ s.screen_state = "flash" ∨
      s.screen_state = "piece") := by
    rw [hphase]; decide
  have hres : handle_keydown shuffle make_stars key s =
      handle_pitfall
        { s with
          player_dir := keyDir key s.player_dir
          player_x := s.player_x + (keyDelta key).1
          player_y := s.player_y + (keyDelta key).2
          visited := insert (s.player_x + (keyDelta key).1,
            s.player_y + (keyDelta key).2) s.visited } := by
    unfold handle_keydown
    rw [if_neg hnw, if_neg hdelta, if_neg (not_not_intro hin), if_pos hpit]
  rw [hres]
  exact ⟨rfl, rfl, rfl, rfl, Finset.insert_eq_self.mpr hrev⟩

/-- C4 amended witness: stepping up onto the already revealed pitfall. -/
theorem revealed_hazard_triggers_again_witness :
    (handle_keydown shuffle0 stars0 K_UP revealedState).death_count =
      revealedState.death_count + 1 ∧
    (handle_keydown shuffle0 stars0 K_UP revealedState).revealed_pitfalls =
      revealedState.revealed_pitfalls :=
  ⟨(revealed_hazard_triggers_again shuffle0 stars0 K_UP revealedState rfl
      (by decide) (by decide) (by decide) (by decide)).2.1,
   (revealed_hazard_triggers_again shuffle0 stars0 K_UP revealedState rfl
      (by decide) (by decide) (by decide) (by decide)).2.2.2.2⟩

/-- C5: in the playing phase, a directional move collecting the 5th distinct
piece — making the collected set equal to the piece set — transitions
directly to the win phase in the same move (the phase ends at `win`, not
`piece`), with the victory angle reset to 0 and an initial particle burst at
the collected cell's pixel centre. -/
theorem fifth_piece_wins (shuffle : Finset Cell → List Cell)
    (make_stars : ℤ → ℤ → ℕ → List S) (key : ℕ) (s : GameState S)
    (hphase : s.screen_state = "playing")
    (hdelta : keyDelta key ≠ (0, 0))
    (hin : 0 ≤ s.player_x + (keyDelta key).1 ∧ s.player_x + (keyDelta key).1 < COLS ∧
           0 ≤ s.player_y + (keyDelta key).2 ∧ s.player_y + (keyDelta key).2 < ROWS)
    (hnopit : (s.player_x + (keyDelta key).1, s.player_y + (keyDelta key).2) ∉
      s.pitfall_positions)
    (hpiece : (s.player_x + (keyDelta key).1, s.player_y + (keyDelta key).2) ∈
      s.piece_positions)
    (hnew : (s.player_x + (keyDelta key).1, s.player_y + (keyDelta key).2) ∉
      s.collected_pieces)
    (hnodup : s.piece_positions.Nodup)
    (hlen : s.piece_positions.length = NUM_PIECES)
    (hall : insert (s.player_x + (keyDelta key).1, s.player_y + (keyDelta key).2)
      s.collected_pieces = s.piece_positions.toFinset) :
    (handle_keydown shuffle make_stars key s).screen_state = "win" ∧
    (handle_keydown shuffle make_stars key s).collected_pieces =
      s.piece_positions.toFinset ∧
    (handle_keydown shuffle make_stars key s).win_angle = 0 ∧
    (handle_keydown shuffle make_stars key s).win_stars =
      make_stars ((s.player_x + (keyDelta key).1) * TILE + TILE / 2)
        (HUD_H + (s.player_y + (keyDelta key).2) * TILE + TILE / 2) 40 := by
  have hnw : ¬ (s.screen_state = "win" ∨ s.screen_state = "flash" ∨
      s.screen_state = "piece") := by
    rw [hphase]; decide
  have hcard : (insert (s.player_x + (keyDelta key).1,
      s.player_y + (keyDelta key).2) s.collected_pieces).card = NUM_PIECES := by
    rw [hall, List.toFinset_card_of_nodup hnodup, hlen]
  unfold handle_keydown
  rw [if_neg hnw, if_neg hdelta, if_neg (not_not_intro hin), if_neg hnopit,
    if_pos ⟨hpiece, hnew⟩, if_pos hcard]
  exact ⟨rfl, hall, rfl, rfl⟩

/-- C5 witness: collecting the fifth piece at (7,6). -/
theorem fifth_piece_wins_witness :
    (handle_keydown shuffle0 stars0 K_UP pieceState).screen_state = "win" ∧
    (handle_keydown shuffle0 stars0 K_UP pieceState).collected_pieces =
      pieceState.piece_positions.toFinset :=
  ⟨(fifth_piece_wins shuffle0 stars0 K_UP pieceState rfl (by decide) (by decide)
      (by decide) (by decide) (by decide) (by decide) (by decide) (by decide)).1,
   (fifth_piece_wins shuffle0 stars0 K_UP pieceState rfl (by decide) (by decide)
      (by decide) (by decide) (by decide) (by decide) (by decide) (by decide)).2.1⟩

lemma oob_step (shuffle : Finset Cell → List Cell)
    (make_stars : ℤ → ℤ → ℕ → List S) (key : ℕ) (s : GameState S)
    (hphase : s.screen_state = "playing")
    (hdelta : keyDelta key ≠ (0, 0))
    (hoob : ¬ (0 ≤ s.player_x + (keyDelta key).1 ∧ s.player_x + (keyDelta key).1 < COLS ∧
               0 ≤ s.player_y + (keyDelta key).2 ∧ s.player_y + (keyDelta key).2 < ROWS)) :
    handle_keydown shuffle make_stars key s =
      { s with player_dir := keyDir key s.player_dir } := by
  have hnw : ¬ (s.screen_state = "win" ∨ s.screen_state = "flash" ∨
      s.screen_state = "piece") := by
    rw [hphase]; decide
  unfold handle_keydown
  rw [if_neg hnw, if_neg hdelta, if_pos hoob]

/-- C7: in the playing phase, a directional move whose candidate cell is out
of bounds changes only the facing; issuing two such moves in a row leaves
position and visited (and all progress fields) unchanged both times, with
the facing updated to the most recent direction each time. -/
theorem oob_move_noop (shuffle : Finset Cell → List Cell)
    (make_stars : ℤ → ℤ → ℕ → List S) (k1 k2 : ℕ) (s : GameState S)
    (hphase : s.screen_state = "playing")
    (hd1 : keyDelta k1 ≠ (0, 0))
    (hd2 : keyDelta k2 ≠ (0, 0))
    (hoob1 : ¬ (0 ≤ s.player_x + (keyDelta k1).1 ∧ s.player_x + (keyDelta k1).1 < COLS ∧
                0 ≤ s.player_y + (keyDelta k1).2 ∧ s.player_y + (keyDelta k1).2 < ROWS))
    (hoob2 : ¬ (0 ≤ s.player_x + (keyDelta k2).1 ∧ s.player_x + (keyDelta k2).1 < COLS ∧
                0 ≤ s.player_y + (keyDelta k2).2 ∧ s.player_y + (keyDelta k2).2 < ROWS)) :
    (handle_keydown shuffle make_stars k1 s).player_x = s.player_x ∧
    (handle_keydown shuffle make_stars k1 s).player_y = s.player_y ∧
    (handle_keydown shuffle make_stars k1 s).visited = s.visited ∧
    (handle_keydown shuffle make_stars k1 s).collected_pieces = s.collected_pieces ∧
    (handle_keydown shuffle make_stars k1 s).revealed_pitfalls = s.revealed_pitfalls ∧
    (handle_keydown shuffle make_stars k1 s).death_count = s.death_count ∧
    (handle_keydown shuffle make_stars k1 s).screen_state = "playing" ∧
    (handle_keydown shuffle make_stars k1 s).player_dir = keyDir k1 s.player_dir ∧
    (handle_keydown shuffle make_stars k2
      (handle_keydown shuffle make_stars k1 s)).player_x = s.player_x ∧
    (handle_keydown shuffle make_stars k2
      (handle_keydown shuffle make_stars k1 s)).player_y = s.player_y ∧
    (handle_keydown shuffle make_stars k2
      (handle_keydown shuffle make_stars k1 s)).visited = s.visited ∧
    (handle_keydown shuffle make_stars k2
      (handle_keydown shuffle make_stars k1 s)).player_dir =
        keyDir k2 (handle_keydown shuffle make_stars k1 s).player_dir := by
  have h1 : handle_keydown shuffle make_stars k1 s =
      { s with player_dir := keyDir k1 s.player_dir } :=
    oob_step shuffle make_stars k1 s hphase hd1 hoob1
  have h2 : handle_keydown shuffle make_stars k2
      ({ s with player_dir := keyDir k1 s.player_dir } : GameState S) =
      { s with player_dir := keyDir k2 (keyDir k1 s.player_dir) } :=
    oob_step shuffle make_stars k2 _ hphase hd2 hoob2
  rw [h1, h2]
  exact ⟨rfl, rfl, rfl, rfl, rfl, rfl, hphase, rfl, rfl, rfl, rfl, rfl⟩

/-- C7 witness: pressing left twice in the top-left corner. -/
theorem oob_move_noop_witness :
    (handle_keydown shuffle0 stars0 K_LEFT cornerState).player_x =
      cornerState.player_x ∧
    (handle_keydown shuffle0 stars0 K_LEFT
      (handle_keydown shuffle0 stars0 K_LEFT cornerState)).visited =
        cornerState.visited :=
  ⟨(oob_move_noop shuffle0 stars0 K_LEFT K_LEFT cornerState rfl (by decide)
      (by decide) (by decide) (by decide)).1,
   (oob_move_noop shuffle0 stars0 K_LEFT K_LEFT cornerState rfl (by decide)
      (by decide) (by decide) (by decide)).2.2.2.2.2.2.2.2.2.2.1⟩

/-- C8: `new_game` starts at the start cell with visited `{start}`, nothing
collected or revealed, zero deaths and phase playing; `reset_game` has the
identical effect, regenerating the map with the state's stored hazard
count. -/
theorem new_game_reset_spec (shuffle : Finset Cell → List Cell) (n : ℕ)
    (s : GameState S) :
    (new_game shuffle n : GameState S).player_x = START_POS.1 ∧
    (new_game shuffle n : GameState S).player_y = START_POS.2 ∧
    (new_game shuffle n : GameState S).visited = {START_POS} ∧
    (new_game shuffle n : GameState S).collected_pieces = ∅ ∧
    (new_game shuffle n : GameState S).revealed_pitfalls = ∅ ∧
    (new_game shuffle n : GameState S).death_count = 0 ∧
    (new_game shuffle n : GameState S).screen_state = "playing" ∧
    reset_game shuffle s = new_game shuffle s.num_pitfalls :=
  ⟨rfl, rfl, rfl, rfl, rfl, rfl, rfl, rfl⟩

/-- C9: `handle_keydown` (away from the reset path) never removes a visited
cell, and keeps the start cell and the current player position in the
visited set. -/
theorem visited_monotone (shuffle : Finset Cell → List Cell)
    (make_stars : ℤ → ℤ → ℕ → List S) (key : ℕ) (s : GameState S)
    (hstart : START_POS ∈ s.visited)
    (hpos : (s.player_x, s.player_y) ∈ s.visited)
    (hnoreset : s.screen_state = "win" → ¬ (key = K_RETURN ∨ key = K_SPACE)) :
    s.visited ⊆ (handle_keydown shuffle make_stars key s).visited ∧
    START_POS ∈ (handle_keydown shuffle make_stars key s).visited ∧
    ((handle_keydown shuffle make_stars key s).player_x,
     (handle_keydown shuffle make_stars key s).player_y) ∈
      (handle_keydown shuffle make_stars key s).visited := by
  unfold handle_keydown
  split_ifs with h1 h2 h3 h4 h5 h6 h7
  · exact absurd h2.2 (hnoreset h2.1)
  · exact ⟨Finset.Subset.refl _, hstart, hpos⟩
  · exact ⟨Finset.Subset.refl _, hstart, hpos⟩
  · simp only [handle_pitfall]
    exact ⟨fun x hx => Finset.mem_insert_of_mem (Finset.mem_insert_of_mem hx),
      Finset.mem_insert_self _ _, Finset.mem_insert_self _ _⟩
  · exact ⟨Finset.subset_insert _ _, Finset.mem_insert_of_mem hstart,
      Finset.mem_insert_self _ _⟩
  · exact ⟨Finset.subset_insert _ _, Finset.mem_insert_of_mem hstart,
      Finset.mem_insert_self _ _⟩
  · exact ⟨Finset.subset_insert _ _, Finset.mem_insert_of_mem hstart,
      Finset.mem_insert_self _ _⟩
  · exact ⟨Finset.Subset.refl _, hstart, hpos⟩

/-- C9 witness: one move up from the start over a fresh pit map. -/
theorem visited_monotone_witness :
    START_POS ∈ (handle_keydown shuffle0 stars0 K_UP pitState).visited :=
  (visited_monotone shuffle0 stars0 K_UP pitState (by decide) (by decide)
    (by decide)).2.1

end Explorer

